import Mathlib

/-!
Shallow embedding of `src/optimizer.py` (PavolS/ii-optimizer).

Modelling conventions:
* Python floats are modelled as exact rationals (`ℚ`).  The spec (§1, §7)
  explicitly puts exact floating-point behaviour out of scope, and every claim
  here is about exact arithmetic structure, not rounding.  In particular the
  float literal `1e-3` is modelled as `1/1000` and Python's `x % y` on floats
  (result has the sign of the divisor, `x - y*⌊x/y⌋` for `y ≠ 0`) is modelled
  by `pymod`.
* Python's `1e999` overflows to `+inf`; it is modelled by the rational
  sentinel `10^999`, which is larger than every time value reachable in any
  theorem of this file, so all comparisons made by the program agree.
* The sparse `multipliers` dict with its `.get(lvl, 1)` default is modelled as
  a total function `ℕ → ℤ` (values are `int(v)` in the source; absent keys
  give `1`).
* The unbounded `while` loop of `Channels.upgradeAt` and the unbounded
  recursion of `optimize` are modelled with an explicit fuel parameter and an
  `Option` result: `none` means the program has not returned (looped or, for
  out-of-range indexing / `min` of an empty sequence, raised).
* `Channel.__hash__` is the level and `Channels.__hash__` hashes the level
  tuple, and `functools.lru_cache` keys on (identity, hash); the caches are
  modelled explicitly, keyed by the level (resp. level vector), in the
  `ChannelC`/`ChannelsC` layer below.  Elsewhere the pure functions are used.
* The `name` field and all printing are out of scope per §1 and are omitted.
-/

set_option allowUnsafeReducibility true

attribute [local semireducible] Rat.mul Rat.add Rat.sub Rat.inv Rat.ofScientific

/-- Python's `%` on reals: `x % y = x - y * ⌊x / y⌋` (for `y ≠ 0`; the result
has the sign of the divisor). -/
def pymod (x y : ℚ) : ℚ := x - y * ⌊x / y⌋

/-- `EPSILON = 1e-3` (line 135). -/
def EPSILON : ℚ := 1 / 1000

/-- `WORST = 1e999` (line 136); Python evaluates this to `+inf`, modelled as a
rational sentinel larger than any time reachable in this development. -/
def WORST : ℚ := 1000000000000000000000000000000000000000000000000000000000000000000000000000000000000000000000000000000000000000000000000000000000000000000000000000000000000000000000000000000000000000000000000000000000000000000000000000000000000000000000000000000000000000000000000000000000000000000000000000000000000000000000000000000000000000000000000000000000000000000000000000000000000000000000000000000000000000000000000000000000000000000000000000000000000000000000000000000000000000000000000000000000000000000000000000000000000000000000000000000000000000000000000000000000000000000000000000000000000000000000000000000000000000000000000000000000000000000000000000000000000000000000000000000000000000000000000000000000000000000000000000000000000000000000000000000000000000000000000000000000000000000000000000000000000000000000000000000000000000000000000000000000000000000000000000000000000000000000000000000000000000000000000000000000000000000000000000000000000000000000000000000000000000000000000000000000000000

/-- One channel (`class Channel`, lines 9–56).  `multipliers` models the dict
together with its `.get(_, 1)` default; `multiplier` starts at `1` in
`__init__`. -/
structure Channel where
  c0 : ℚ
  r : ℚ
  t : ℚ
  views : ℚ
  p : ℚ
  lvl : ℕ
  multipliers : ℕ → ℤ
  multiplier : ℚ

/-- `Channel.__init__` (lines 10–19): all reward/cost fields from the
definition, starting level from the definition, and `multiplier = 1`
regardless of the starting level. -/
def Channel.ofDef (c0 r t views p : ℚ) (lvl : ℕ) (multipliers : ℕ → ℤ) : Channel :=
  ⟨c0, r, t, views, p, lvl, multipliers, 1⟩

/-- `Channel.upgrade` (lines 21–24): increment the level, then multiply the
cumulative multiplier by the table factor of the *new* level.  (The Python
method also returns `self.t`, a value no caller uses.) -/
def Channel.upgrade (c : Channel) : Channel :=
  { c with lvl := c.lvl + 1, multiplier := c.multiplier * ((c.multipliers (c.lvl + 1) : ℚ)) }

/-- `Channel.degrade` (lines 26–28): divide the multiplier by the table factor
of the *current* level, then decrement the level. -/
def Channel.degrade (c : Channel) : Channel :=
  { c with lvl := c.lvl - 1, multiplier := c.multiplier / ((c.multipliers c.lvl : ℚ)) }

/-- `Channel.cost` (lines 30–32): `c0 * r**lvl`. -/
def Channel.cost (c : Channel) : ℚ := c.c0 * c.r ^ c.lvl

/-- `Channel.cash_out` (lines 34–36): `views*p*multiplier*lvl`. -/
def Channel.cash_out (c : Channel) : ℚ := c.views * c.p * c.multiplier * (c.lvl : ℚ)

/-- `Channel.till_cash_out` (lines 38–39): `t - t % self.t` (time argument
named `t` in Python; here `tt`). -/
def Channel.till_cash_out (c : Channel) (tt : ℚ) : ℚ := c.t - pymod tt c.t

/-- `Channel.since_cash_out` (lines 41–42). -/
def Channel.since_cash_out (c : Channel) (tt : ℚ) : ℚ := pymod tt c.t

/-- `Channel.income` (lines 44–46): `cash_out() / t`. -/
def Channel.income (c : Channel) : ℚ := c.cash_out / c.t

/-- Placeholder channel used for out-of-range list indexing, which in Python
would raise `IndexError`; no theorem below reaches it with an
out-of-range index. -/
def dfltChannel : Channel := ⟨0, 0, 1, 0, 0, 0, fun _ => 1, 1⟩

/-- The `Channels` collection (lines 58–115) is an ordered list of channels. -/
abbrev Channels := List Channel

/-- In-place update of element `i` of a list (Python `self._channels[i]`
mutation). Out-of-range indices leave the list unchanged. -/
def modifyIdx : Channels → ℕ → (Channel → Channel) → Channels
  | [], _, _ => []
  | c :: cs, 0, f => f c :: cs
  | c :: cs, n + 1, f => c :: modifyIdx cs n f

namespace Channels

/-- `Channels.lvls` (lines 67–69). -/
def lvls (econ : Channels) : List ℕ := econ.map Channel.lvl

/-- `Channels.income` (lines 71–73): sum of the channels' incomes. -/
def income (econ : Channels) : ℚ := (econ.map Channel.income).sum

/-- `Channels.upgrade(i)` (lines 75–76). -/
def upgrade (econ : Channels) (i : ℕ) : Channels := modifyIdx econ i Channel.upgrade

/-- `Channels.degrade(i)` (lines 78–79). -/
def degrade (econ : Channels) (i : ℕ) : Channels := modifyIdx econ i Channel.degrade

end Channels

/-- Strict lexicographic order on pairs, exactly Python's `<` on 2-tuples of
floats: compare first components, on equality compare second components. -/
def lexLt (a b : ℚ × ℚ) : Prop := a.1 < b.1 ∨ (a.1 = b.1 ∧ a.2 < b.2)

/-- Non-strict lexicographic order on pairs (Python's `<=` on 2-tuples). -/
def lexLe (a b : ℚ × ℚ) : Prop := a.1 < b.1 ∨ (a.1 = b.1 ∧ a.2 ≤ b.2)

instance (a b : ℚ × ℚ) : Decidable (lexLt a b) := by unfold lexLt; infer_instance

instance (a b : ℚ × ℚ) : Decidable (lexLe a b) := by unfold lexLe; infer_instance

/-- One step of Python's `min` scan over tuples: keep the current minimum
unless the new element is strictly smaller (so the first minimum wins). -/
def minStep (acc y : ℚ × ℚ) : ℚ × ℚ := if lexLt y acc then y else acc

/-- Python's `min` over an iterable of 2-tuples: `none` on the empty iterable
(where Python raises `ValueError`), otherwise the first lexicographic
minimum. -/
def pyMinPairs : List (ℚ × ℚ) → Option (ℚ × ℚ)
  | [] => none
  | x :: xs => some (xs.foldl minStep x)

/-- Python's `min` over floats (first minimum wins). -/
def pyMinQ : List ℚ → Option ℚ
  | [] => none
  | x :: xs => some (xs.foldl (fun acc y => if y < acc then y else acc) x)

/-- Python's `max` over floats (first maximum wins). -/
def pyMaxQ : List ℚ → Option ℚ
  | [] => none
  | x :: xs => some (xs.foldl (fun acc y => if acc < y then y else acc) x)

namespace Channels

/-- The pair `(c.t - t % c.t, c.cash_out())` computed for each channel on
line 82. -/
def cashout_pairs (econ : Channels) (t : ℚ) : List (ℚ × ℚ) :=
  econ.map fun c => (c.t - pymod t c.t, c.cash_out)

/-- `Channels.get_time_and_money_for_next_cashout` (lines 81–82): Python's
`min` over the `(time-till-payout, payout)` pairs, i.e. their lexicographic
minimum. -/
def get_time_and_money_for_next_cashout (econ : Channels) (t : ℚ) : Option (ℚ × ℚ) :=
  pyMinPairs (cashout_pairs econ t)

/-- `Channels.min_cost` (lines 84–86).  `min` of an empty sequence raises in
Python; the default `0` is never reached by any theorem below. -/
def min_cost (econ : Channels) : ℚ := (pyMinQ (econ.map Channel.cost)).getD 0

/-- `Channels.max_cost` (lines 88–90). -/
def max_cost (econ : Channels) : ℚ := (pyMaxQ (econ.map Channel.cost)).getD 0

/-- `Channels.t_rems` (lines 92–93): `floor((t % c.t) * 10)` per channel. -/
def t_rems (econ : Channels) (t : ℚ) : List ℤ :=
  econ.map fun c => ⌊pymod t c.t * 10⌋

/-- The `while cash < cu.cost()` event loop of `Channels.upgradeAt`
(lines 102–105), with explicit fuel for the unbounded loop: credit the
soonest payout and advance time by its delay plus `EPSILON`, until the
*current-level* cost of channel `i` is affordable. -/
def upgradeLoop (econ : Channels) (i : ℕ) : ℕ → ℚ → ℚ → Option (ℚ × ℚ)
  | fuel, cash, t =>
    if cash < (econ.getD i dfltChannel).cost then
      match fuel with
      | 0 => none
      | fuel' + 1 =>
        match get_time_and_money_for_next_cashout econ t with
        | none => none
        | some (dt, dc) => upgradeLoop econ i fuel' (cash + dc) (t + dt + EPSILON)
    else some (cash, t)

/-- `Channels.upgradeAt` (lines 98–108): run the event loop until channel `i`'s
(pre-upgrade) cost is affordable, then `cu.upgrade()` and subtract
`cu.cost()` — which the source computes *after* the upgrade, i.e. at the new
level.  Returns the new `(cash, t)` together with the mutated collection. -/
def upgradeAt (fuel : ℕ) (econ : Channels) (i : ℕ) (cash t : ℚ) : Option (ℚ × ℚ × Channels) :=
  (upgradeLoop econ i fuel cash t).map fun ct =>
    let econ' := modifyIdx econ i Channel.upgrade
    (ct.1 - (econ'.getD i dfltChannel).cost, ct.2, econ')

end Channels

/-- An upgrade path: the `(channel index, timestamp)` pairs appended on
line 157. -/
abbrev UPath := List (ℕ × ℚ)

/-- Memo keys (`LookupStorage.key`, lines 121–125): discretized payout phases,
cash bucket, level vector — in that order. -/
abbrev Key := List ℤ × ℤ × List ℕ

/-- Memo values: the `(t, path)` pairs stored on line 164. -/
abbrev Val := ℚ × UPath

/-- The `LookupStorage.data` dict, as an association list where the most
recent binding of a key shadows older ones (exactly a dict's overwrite
semantics). -/
abbrev Memo := List (Key × Val)

/-- Dict lookup (`self.data.get(key)`). -/
def memLookup : Memo → Key → Option Val
  | [], _ => none
  | kv :: rest, k => if kv.1 = k then some kv.2 else memLookup rest k

/-- Dict store (`self.data[key] = value`, line 128). -/
def memStore (m : Memo) (k : Key) (v : Val) : Memo := (k, v) :: m

namespace LookupStorage

/-- `LookupStorage.key` (lines 121–125): the triple of the per-channel
discretized payout phases `t_rems(t)`, the cash bucket
`floor(cash % max_cost() / min_cost())`, and the level vector. -/
def key (econ : Channels) (cash t : ℚ) : Key :=
  (econ.t_rems t, ⌊pymod cash econ.max_cost / econ.min_cost⌋, econ.lvls)

/-- `LookupStorage.lookup` (lines 130–132): return the key together with the
stored value, if any. -/
def lookup (m : Memo) (econ : Channels) (cash t : ℚ) : Key × Option Val :=
  (key econ cash t, memLookup m (key econ cash t))

end LookupStorage

/-- The global search state: `best` (line 137) and the memo table `mem`
(line 138), threaded explicitly through the recursion. -/
structure Glob where
  best : ℚ
  mem : Memo

/-- The globals at program start: `best = WORST`, empty memo. -/
def initGlob : Glob := ⟨WORST, []⟩

/-- Python's `min(options, key=lambda r: r[0])` (line 159): first minimum of
the first components; `none` for the empty list (Python raises). -/
def pyMinByFst : List (ℚ × UPath) → Option (ℚ × UPath)
  | [] => none
  | x :: xs => some (xs.foldl (fun acc y => if y.1 < acc.1 then y else acc) x)

/-- One sibling iteration of the `for i, _ in enumerate(...)` loop of
`optimize` (lines 155–158), parametrized by the recursive call `f`:
simulate buying channel `i`'s upgrade from the *entry* `(cash, t)`, recurse
on the mutated economy with the extended path, then `degrade(i)`.  A `none`
(non-returning call) aborts the whole loop. -/
def sibStep (f : Channels → ℚ → ℚ → UPath → Glob → Option ((ℚ × UPath) × Glob × Channels))
    (loopFuel : ℕ) (cash t : ℚ) (path : UPath) :
    Option (Channels × Glob × List (ℚ × UPath)) → ℕ → Option (Channels × Glob × List (ℚ × UPath))
  | none, _ => none
  | some (econ, g, opts), i =>
    match Channels.upgradeAt loopFuel econ i cash t with
    | none => none
    | some (cash', t', econ') =>
      match f econ' cash' t' (path ++ [(i, t')]) g with
      | none => none
      | some (res, g', econ'') => some (modifyIdx econ'' i Channel.degrade, g', opts ++ [res])

/-- `optimize` (lines 140–166), with fuel bounding both the recursion depth
and the event-loop length of each simulator call.  Returns the `(t, path)`
result together with the updated globals and the economy as left by the
call. -/
def optimizeF (bound : ℚ) : ℕ → Channels → ℚ → ℚ → UPath → Glob →
    Option ((ℚ × UPath) × Glob × Channels)
  | 0, _, _, _, _, _ => none
  | fuel + 1, econ, cash, t, path, glob =>
    match memLookup glob.mem (LookupStorage.key econ cash t) with
    | some v => some (v, glob, econ)
    | none =>
      if t > glob.best then
        some ((WORST, path), glob, econ)
      else if econ.income < bound then
        match (List.range econ.length).foldl
            (sibStep (optimizeF bound fuel) fuel cash t path) (some (econ, glob, [])) with
        | none => none
        | some (econEnd, g, opts) =>
          match pyMinByFst opts with
          | none => none
          | some tp =>
            let g2 : Glob := if tp.1 < g.best then ⟨tp.1, g.mem⟩ else g
            some (tp, ⟨g2.best, memStore g2.mem (LookupStorage.key econ cash t) tp⟩, econEnd)
      else
        some ((t, path),
          ⟨glob.best, memStore glob.mem (LookupStorage.key econ cash t) (t, path)⟩, econ)

/-- Modelled from the spec: §4.3 policy 2 (closed-form jump), which is absent
from `src/` (only policy 1, `Channels.upgradeAt`, is implemented).  "If
already affordable, buy immediately; else estimate the shortfall-covering
delta time assuming constant current aggregate income, jump time forward
crediting each channel the number of full payout cycles elapsed in that
window (floor division), then fall back to policy 1 to correct any residual
shortfall." -/
def upgradeAt2 (fuel : ℕ) (econ : Channels) (i : ℕ) (cash t : ℚ) : Option (ℚ × ℚ × Channels) :=
  let cu := econ.getD i dfltChannel
  if cash < cu.cost then
    let delta := (cu.cost - cash) / econ.income
    let credited := cash + (econ.map fun c => ((⌊delta / c.t⌋ : ℤ) : ℚ) * c.cash_out).sum
    Channels.upgradeAt fuel econ i credited (t + delta)
  else
    Channels.upgradeAt fuel econ i cash t

/-- Modelled from the spec: §4.3 policy 3 (amortized-income jump), absent from
`src/`.  "Buy immediately, advance time by cost(i)/current aggregate income
as an accounting fiction; does not model discrete payout timing or cash
balance exactly." -/
def upgradeAt3 (econ : Channels) (i : ℕ) (cash t : ℚ) : Option (ℚ × ℚ × Channels) :=
  let cu := econ.getD i dfltChannel
  some (cash, t + cu.cost / econ.income, modifyIdx econ i Channel.upgrade)

/-- Modelled from the spec: the simulation-policy selector of §4.3/§6 ("an
optional simulation-policy selector (one of the three in §4.3)"), absent
from `src/` whose `__main__` exposes no such option.  Policy 1 dispatches to
the in-source `Channels.upgradeAt`. -/
def simulateUpgrade (policy : ℕ) (fuel : ℕ) (econ : Channels) (i : ℕ) (cash t : ℚ) :
    Option (ℚ × ℚ × Channels) :=
  match policy with
  | 2 => upgradeAt2 fuel econ i cash t
  | 3 => upgradeAt3 econ i cash t
  | _ => Channels.upgradeAt fuel econ i cash t

/-- Driver for the one-channel tolerance scenario of §8: repeatedly buy the
single channel's next upgrade under the chosen policy until aggregate
income reaches the bound, and report the completion time. -/
def runPolicy (policy : ℕ) (bound : ℚ) : ℕ → Channels → ℚ → ℚ → Option ℚ
  | 0, _, _, _ => none
  | fuel + 1, econ, cash, t =>
    if bound ≤ econ.income then some t
    else
      match simulateUpgrade policy fuel econ 0 cash t with
      | none => none
      | some (cash', t', econ') => runPolicy policy bound fuel econ' cash' t'

/-- Tolerance for the §8 policy-comparison scenario ("within a defined
tolerance"): one hundredth of a time unit. -/
def TOL : ℚ := 1 / 100

/-- No table entry: every `multipliers.get(lvl, 1)` returns the default 1. -/
def tblOne : ℕ → ℤ := fun _ => 1

/-- All multiplier-table factors are nonzero, so every `degrade` performs a
well-defined division (a zero factor would raise `ZeroDivisionError` in
Python). -/
def NonzeroFactors (econ : Channels) : Prop :=
  ∀ c ∈ econ, ∀ ℓ, c.multipliers ℓ ≠ 0

/-!
## The `functools.lru_cache` layer

`Channel.cost` (and `Channels.min_cost`/`max_cost`) carry `functools.lru_cache`
decorators.  The cache key is the argument tuple `(self,)`; Python dict lookup
requires equal hashes *and* equal keys, `Channel.__eq__` is identity, and
`Channel.__hash__` is the level (line 56, "a perfect hash when combined with
type") resp. the hash of the level tuple (line 96).  Hence for the one
long-lived object of the search the cache behaves as a map from the level
(resp. the level vector, with Python's tuple hash treated as injective) to the
value computed when that level was first seen.  The `ChannelC`/`ChannelsC`
structures model those maps explicitly so that claims about cache staleness
across level changes can be settled.
-/

/-- A channel together with its `cost()` lru_cache, keyed by the level. -/
structure ChannelC where
  ch : Channel
  costCache : ℕ → Option ℚ

/-- Placeholder for out-of-range indexing in the cached layer. -/
def dfltChannelC : ChannelC := ⟨dfltChannel, fun _ => none⟩

/-- A `cost()` call on the cached layer: return the cached value for the
current level if present, otherwise compute `c0 * r**lvl` and cache it under
the current level. -/
def ChannelC.costQ (c : ChannelC) : ℚ × ChannelC :=
  match c.costCache c.ch.lvl with
  | some v => (v, c)
  | none =>
    let v := c.ch.cost
    (v, ⟨c.ch, fun ℓ => if ℓ = c.ch.lvl then some v else c.costCache ℓ⟩)

/-- The channel collection together with the `min_cost`/`max_cost` lru_caches,
keyed by the level vector. -/
structure ChannelsC where
  chans : List ChannelC
  minCache : List ℕ → Option ℚ
  maxCache : List ℕ → Option ℚ

/-- Fresh caches at construction time. -/
def initC (chs : List Channel) : ChannelsC :=
  ⟨chs.map fun c => ⟨c, fun _ => none⟩, fun _ => none, fun _ => none⟩

/-- The level vector of the cached layer. -/
def lvlsC (s : ChannelsC) : List ℕ := s.chans.map fun c => c.ch.lvl

/-- Call `cost()` on every channel in order (the generator on lines 86/90),
threading each channel's cache. -/
def costsQ : List ChannelC → List ℚ × List ChannelC
  | [] => ([], [])
  | c :: cs =>
    let vc := c.costQ
    let vcs := costsQ cs
    (vc.1 :: vcs.1, vc.2 :: vcs.2)

/-- A `min_cost()` call: hit the cache at the current level vector, or compute
`min(c.cost() for c in channels)` (caching each channel cost on the way) and
store it. -/
def min_costQ (s : ChannelsC) : Option ℚ × ChannelsC :=
  match s.minCache (lvlsC s) with
  | some v => (some v, s)
  | none =>
    match pyMinQ (costsQ s.chans).1 with
    | none => (none, ⟨(costsQ s.chans).2, s.minCache, s.maxCache⟩)
    | some v =>
      (some v, ⟨(costsQ s.chans).2,
        fun L => if L = lvlsC s then some v else s.minCache L, s.maxCache⟩)

/-- A `max_cost()` call, symmetric to `min_costQ`. -/
def max_costQ (s : ChannelsC) : Option ℚ × ChannelsC :=
  match s.maxCache (lvlsC s) with
  | some v => (some v, s)
  | none =>
    match pyMaxQ (costsQ s.chans).1 with
    | none => (none, ⟨(costsQ s.chans).2, s.minCache, s.maxCache⟩)
    | some v =>
      (some v, ⟨(costsQ s.chans).2, s.minCache,
        fun L => if L = lvlsC s then some v else s.maxCache L⟩)

/-- The operations the search performs on the shared collection, as far as the
cost caches can observe them: upgrades, degrades, and the three cached
queries. -/
inductive COp where
  | up (i : ℕ)
  | down (i : ℕ)
  | qcost (i : ℕ)
  | qmin
  | qmax

/-- In-place update of element `i` of a cached-channel list. -/
def modifyIdxC : List ChannelC → ℕ → (ChannelC → ChannelC) → List ChannelC
  | [], _, _ => []
  | c :: cs, 0, f => f c :: cs
  | c :: cs, n + 1, f => c :: modifyIdxC cs n f

/-- One operation on the cached layer.  `upgrade`/`degrade` mutate the level
and multiplier but — exactly like the Python caches, which are never
invalidated — leave every cache untouched. -/
def stepC (s : ChannelsC) : COp → ChannelsC
  | .up i => ⟨modifyIdxC s.chans i (fun c => ⟨c.ch.upgrade, c.costCache⟩), s.minCache, s.maxCache⟩
  | .down i => ⟨modifyIdxC s.chans i (fun c => ⟨c.ch.degrade, c.costCache⟩), s.minCache, s.maxCache⟩
  | .qcost i => ⟨modifyIdxC s.chans i (fun c => c.costQ.2), s.minCache, s.maxCache⟩
  | .qmin => (min_costQ s).2
  | .qmax => (max_costQ s).2

/-- Run a sequence of operations from construction. -/
def runCOps (chs : List Channel) (ops : List COp) : ChannelsC :=
  ops.foldl stepC (initC chs)

/-- A well-formed cost cache only holds values of `c0 * r**ℓ` under key `ℓ`. -/
def WFch (c : ChannelC) : Prop :=
  ∀ ℓ v, c.costCache ℓ = some v → v = c.ch.c0 * c.ch.r ^ ℓ

/-- The cost of one channel evaluated at a hypothetical level `ℓ` (the
channels' cost parameters never change, so this is what a cache entry keyed
by `ℓ` must hold). -/
def costAtL (c : ChannelC) (ℓ : ℕ) : ℚ := c.ch.c0 * c.ch.r ^ ℓ

/-- The per-channel costs at a hypothetical level vector `L`. -/
def costsAt (s : ChannelsC) (L : List ℕ) : List ℚ := List.zipWith costAtL s.chans L

/-- A well-formed `min_cost` cache only holds, under a level vector `L`, the
minimum of the channels' costs evaluated at `L`. -/
def WFmin (s : ChannelsC) : Prop :=
  ∀ L v, s.minCache L = some v → pyMinQ (costsAt s L) = some v

/-- A well-formed `max_cost` cache, symmetric to `WFmin`. -/
def WFmax (s : ChannelsC) : Prop :=
  ∀ L v, s.maxCache L = some v → pyMaxQ (costsAt s L) = some v

/-- All caches of the collection are well-formed. -/
def WFsys (s : ChannelsC) : Prop :=
  (∀ c ∈ s.chans, WFch c) ∧ WFmin s ∧ WFmax s

/-!
## Concrete configurations used by counterexamples and witnesses
-/

/-- The single channel of claim C1's failing input: `cost.initial = 10`,
`cost.rate = 2`, `reward.duration = 1`, `views = 1`, `revenue = 1`,
level `0`, empty multiplier table. -/
def c1ch : Channel := Channel.ofDef 10 2 1 1 1 0 tblOne

/-- The claim-C2 scenario economy (§8): the same single channel definition. -/
def c2econ : Channels := [c1ch]

/-- A channel for the C3 counterexample: payout cycle 1, payout amount 5. -/
def c3chA : Channel := ⟨7, 2, 1, 5, 1, 1, tblOne, 1⟩

/-- A channel for the C3 counterexample: payout cycle 1, payout amount 3. -/
def c3chB : Channel := ⟨7, 2, 1, 3, 1, 1, tblOne, 1⟩

/-- The two-channel C3 economy: both channels pay at the same instants, with
different payout amounts. -/
def c3econ : Channels := [c3chA, c3chB]

/-- A multiplier table with factor 2 at level 1 (and default 1 elsewhere), for
the C4 counterexample. -/
def tblC4 : ℕ → ℤ := fun ℓ => if ℓ = 1 then 2 else 1

/-- A multiplier table with nonzero factors 2 at level 1 and 3 at level 2, for
the C4 witness. -/
def tblC4w : ℕ → ℤ := fun ℓ => if ℓ = 1 then 2 else if ℓ = 2 then 3 else 1

/-- A concrete channel with a nontrivial multiplier table for the C6 witness:
the factor at the next level (3) is nonzero. -/
def c6ch : Channel := ⟨1, 2, 3, 4, 5, 2, (fun ℓ => (ℓ : ℤ)), 2⟩

/-- A one-channel economy at level 1 for the C7 witness: income 1, so a bound
of 2 forces one upgrade-recurse-degrade round. -/
def c7ch : Channel := Channel.ofDef 1 2 1 1 1 1 tblOne

/-- The C7 witness economy. -/
def c7econ : Channels := [c7ch]

/-- The channel of the C8 collision witness (cost 20 at level 1). -/
def c8ch : Channel := Channel.ofDef 10 2 1 1 1 1 tblOne

/-- The C8 witness economy. -/
def c8econ : Channels := [c8ch]

/-- A channel with `rate > 1` but zero initial cost: the C9 counterexample. -/
def c9bad : Channel := Channel.ofDef 0 2 1 1 1 0 tblOne

/-- A well-behaved channel for the C9 witness. -/
def c9good : Channel := Channel.ofDef 1 2 1 1 1 0 tblOne

/-- The hand-built one-channel economy of the C10 tolerance scenario: income 1
at level 1, target bound 2, so exactly one more upgrade is needed. -/
def c10econ : Channels := [Channel.ofDef 1 2 1 1 1 1 tblOne]

/-- A single-channel view of the upgrade/degrade calls the search performs. -/
inductive ChOp where
  | up
  | down

/-- Execute a sequence of upgrade/degrade calls on one channel. -/
def chExec (c : Channel) : List ChOp → Channel
  | [] => c
  | ChOp.up :: rest => chExec c.upgrade rest
  | ChOp.down :: rest => chExec c.degrade rest

/-- The call sequences the search engine can produce on one channel: every
`degrade` cancels a preceding `upgrade` (`k` counts upgrades not yet
cancelled). -/
def okFrom : ℕ → List ChOp → Prop
  | _, [] => True
  | k, ChOp.up :: rest => okFrom (k + 1) rest
  | k, ChOp.down :: rest => 0 < k ∧ okFrom (k - 1) rest

/-- The multiplier invariant for a channel whose construction-time level was
`L0`: the cumulative multiplier is the product of the table factors of the
levels reached by `upgrade`, i.e. levels `L0+1 .. lvl`. -/
def multInv (L0 : ℕ) (c : Channel) : Prop :=
  c.multiplier = ∏ ℓ ∈ Finset.Icc (L0 + 1) c.lvl, ((c.multipliers ℓ : ℚ))

set_option maxRecDepth 10000

/-!
## Helper lemmas
-/

/-- `upgrade` then `degrade` is the identity when the table factor of the new
level is nonzero (a zero factor makes Python's `degrade` raise
`ZeroDivisionError`). -/
theorem degrade_upgrade_eq (c : Channel) (h : c.multipliers (c.lvl + 1) ≠ 0) :
    c.upgrade.degrade = c := by
  have hq : ((c.multipliers (c.lvl + 1) : ℚ)) ≠ 0 := by exact_mod_cast h
  cases c
  simp_all [Channel.upgrade, Channel.degrade, mul_div_cancel_right₀]

/-!
## Claim C1 — `upgradeAt` and the sign of the returned cash (code bug)
-/

/-- Claim C1 (failing-input evaluation): on a single channel with
`cost.initial = 10`, `rate = 2`, level 0, the call `upgradeAt(0, cash=10, t=0)`
skips the event loop (`10 ≥ cost = 10`) yet returns cash `-10 < 0`: the
source subtracts `cu.cost()` *after* `cu.upgrade()`, i.e. the cost at the new
level (`10·2¹ = 20`), not the cost the loop waited for.  This contradicts the
claim (and §4.3/§8 of the spec) that policy 1 returns cash `≥ 0`. -/
theorem C1_upgradeAt_returns_negative_cash :
    (Channels.upgradeAt 5 [c1ch] 0 10 0).map (fun res => (res.1, res.2.1)) = some (-10, 0) ∧
      ((0 : ℚ) ≤ 10) ∧ ((-10 : ℚ) < 0) := by
  refine ⟨by decide, by norm_num, by norm_num⟩

/-!
## Claim C6 — `upgrade` then `degrade` restores the channel
-/

/-- Claim C6: for every channel state, `upgrade()` immediately followed by
`degrade()` restores the level and the cumulative multiplier exactly
(hypothesis: the table factor consumed by the pair is nonzero — with a zero
factor Python's `degrade` raises `ZeroDivisionError` instead of
returning). -/
theorem C6_upgrade_degrade_restores (c : Channel)
    (h : c.multipliers (c.lvl + 1) ≠ 0) : c.upgrade.degrade = c :=
  degrade_upgrade_eq c h

/-- Witness for C6 at a concrete channel (level 2, factor 3 at the next
level). -/
theorem C6_witness :
    c6ch.multipliers (c6ch.lvl + 1) ≠ 0 ∧ c6ch.upgrade.degrade = c6ch :=
  ⟨by decide, C6_upgrade_degrade_restores c6ch (by decide)⟩

/-!
## Claim C9 — monotonicity of cost / cash_out / income in the level
-/

/-- Counterexample to claim C9 as stated: a channel with `rate = 2 > 1` but
`cost.initial = 0` has `cost = 0` at every level, so `cost` is *not*
strictly increasing in the level. -/
theorem C9_cex_zero_initial_cost :
    1 < c9bad.r ∧ c9bad.cost = c9bad.upgrade.cost :=
  ⟨by decide, by decide⟩

/-- Claim C9 (amended with the positivity assumptions the counterexample
forces): for a channel with `rate > 1` and positive initial cost, `cost` is
strictly increasing under `upgrade()`; and with non-negative `views·revenue`
and multiplier, a table factor `≥ 1` at the new level, and positive payout
duration, `cash_out` and `income` are non-decreasing under `upgrade()`. -/
theorem C9_amended_monotone (c : Channel) (hr : 1 < c.r) (hc0 : 0 < c.c0)
    (hvp : 0 ≤ c.views * c.p) (hm : 0 ≤ c.multiplier)
    (hf : 1 ≤ ((c.multipliers (c.lvl + 1) : ℚ))) (ht : 0 < c.t) :
    c.cost < c.upgrade.cost ∧ c.cash_out ≤ c.upgrade.cash_out ∧
      c.income ≤ c.upgrade.income := by
  have hr0 : (0 : ℚ) < c.r := lt_trans one_pos hr
  have hpow : (0 : ℚ) < c.r ^ c.lvl := pow_pos hr0 _
  have hl0 : (0 : ℚ) ≤ (c.lvl : ℚ) := Nat.cast_nonneg _
  have hcost : c.cost < c.upgrade.cost := by
    simp only [Channel.cost, Channel.upgrade, pow_succ]
    nlinarith [mul_pos hc0 hpow, mul_pos (mul_pos hc0 hpow) (sub_pos.mpr hr)]
  have hcash : c.cash_out ≤ c.upgrade.cash_out := by
    simp only [Channel.cash_out, Channel.upgrade]
    push_cast
    nlinarith [mul_nonneg hm (sub_nonneg.mpr hf),
      mul_nonneg (mul_nonneg hm (sub_nonneg.mpr hf)) hl0,
      mul_nonneg hm (le_trans zero_le_one hf)]
  refine ⟨hcost, hcash, ?_⟩
  have hT : c.upgrade.t = c.t := rfl
  simp only [Channel.income, hT]
  exact (div_le_div_iff_of_pos_right ht).mpr hcash

/-- Witness for the amended C9 at a concrete well-behaved channel. -/
theorem C9_witness :
    (1 < c9good.r ∧ 0 < c9good.c0 ∧ 0 ≤ c9good.views * c9good.p ∧
      0 ≤ c9good.multiplier ∧ 1 ≤ ((c9good.multipliers (c9good.lvl + 1) : ℚ)) ∧
      0 < c9good.t) ∧
    (c9good.cost < c9good.upgrade.cost ∧
      c9good.cash_out ≤ c9good.upgrade.cash_out ∧
      c9good.income ≤ c9good.upgrade.income) :=
  ⟨⟨by decide, by decide, by decide, by decide, by decide, by decide⟩,
    C9_amended_monotone c9good (by decide) (by decide) (by decide) (by decide)
      (by decide) (by decide)⟩

/-!
## Claim C4 — the multiplier invariant
-/

/-- Counterexample to claim C4 as stated: a channel constructed from a
definition with starting level 1 and table factor 2 at level 1 has
`multiplier = 1` (the constructor sets it to `1` unconditionally, crediting
no factor for pre-existing levels), while the product of the table factors
for levels `1..1` is `2`. -/
theorem C4_cex_constructor_ignores_table :
    (Channel.ofDef 5 2 1 1 1 1 tblC4).multiplier = 1 ∧
      (∏ ℓ ∈ Finset.Icc 1 (Channel.ofDef 5 2 1 1 1 1 tblC4).lvl,
        (((Channel.ofDef 5 2 1 1 1 1 tblC4).multipliers ℓ : ℚ))) = 2 ∧
      (1 : ℚ) ≠ 2 := by
  refine ⟨rfl, ?_, by norm_num⟩
  decide

/-- Claim C4 (amended): the invariant that holds on the code is relative to
the construction-time level `L0`: at every state reachable from construction
by properly paired upgrade/degrade calls (with nonzero table factors), the
cumulative multiplier is the product of the table factors for levels
`L0+1 .. current` — the constructor credits no factors for the starting
level itself, so the claim's `1 .. current` product is obtained only when
`L0 = 0`. -/
theorem C4_amended_multiplier_invariant (c0 r t views p : ℚ) (L0 : ℕ) (tbl : ℕ → ℤ)
    (ops : List ChOp) (hok : okFrom 0 ops) (hnz : ∀ ℓ, tbl ℓ ≠ 0) :
    multInv L0 (chExec (Channel.ofDef c0 r t views p L0 tbl) ops) := by
  suffices h : ∀ (ops : List ChOp) (k : ℕ) (c : Channel), okFrom k ops →
      c.multipliers = tbl → c.lvl = L0 + k → multInv L0 c → multInv L0 (chExec c ops) by
    refine h ops 0 _ hok rfl rfl ?_
    simp [multInv, Channel.ofDef, Finset.Icc_eq_empty_of_lt (Nat.lt_succ_self L0)]
  intro ops
  induction ops with
  | nil => intro k c _ _ _ hInv; exact hInv
  | cons op rest ih =>
    intro k c hok htbl hlvl hInv
    cases op with
    | up =>
      refine ih (k + 1) c.upgrade hok ?_ ?_ ?_
      · exact htbl
      · simp [Channel.upgrade, hlvl]; omega
      · unfold multInv at hInv ⊢
        have hle : L0 + 1 ≤ c.lvl + 1 := by omega
        show c.multiplier * _ = _
        rw [hInv]
        have := Finset.prod_Icc_succ_top hle
          (f := fun ℓ => ((c.multipliers ℓ : ℚ)))
        simp only [Channel.upgrade]
        rw [this]
    | down =>
      obtain ⟨hk, hok'⟩ := hok
      refine ih (k - 1) c.degrade hok' htbl ?_ ?_
      · simp [Channel.degrade, hlvl]; omega
      · unfold multInv at hInv ⊢
        simp only [Channel.degrade]
        have hlv : c.lvl - 1 + 1 = c.lvl := by omega
        have hle : L0 + 1 ≤ c.lvl - 1 + 1 := by omega
        have hprod := Finset.prod_Icc_succ_top hle
          (f := fun ℓ => ((c.multipliers ℓ : ℚ)))
        rw [hlv] at hprod
        have hfz : ((c.multipliers c.lvl : ℚ)) ≠ 0 := by
          rw [htbl]; exact_mod_cast hnz c.lvl
        rw [hInv, hprod, mul_div_cancel_right₀ _ hfz]

/-- Witness for the amended C4: starting level 0, factors 2 then 3, sequence
up–up–down–up; the final multiplier is `2 · 3 = 6`... the invariant holds at
the resulting state. -/
theorem C4_witness :
    okFrom 0 [ChOp.up, ChOp.up, ChOp.down, ChOp.up] ∧ (∀ ℓ, tblC4w ℓ ≠ 0) ∧
      multInv 0 (chExec (Channel.ofDef 1 1 1 1 1 0 tblC4w)
        [ChOp.up, ChOp.up, ChOp.down, ChOp.up]) :=
  ⟨by simp [okFrom], by intro ℓ; unfold tblC4w; split <;> first | decide | (split <;> decide),
    C4_amended_multiplier_invariant 1 1 1 1 1 0 tblC4w _ (by simp [okFrom])
      (by intro ℓ; unfold tblC4w; split <;> first | decide | (split <;> decide))⟩

/-!
## Claim C3 — tie-breaking in `get_time_and_money_for_next_cashout`
-/

/-- `lexLe` is reflexive. -/
theorem lexLe_refl (a : ℚ × ℚ) : lexLe a a := Or.inr ⟨rfl, le_refl _⟩

/-- `lexLe` is transitive. -/
theorem lexLe_trans {a b c : ℚ × ℚ} (h1 : lexLe a b) (h2 : lexLe b c) : lexLe a c := by
  rcases h1 with h1 | ⟨h1, h1'⟩ <;> rcases h2 with h2 | ⟨h2, h2'⟩
  · exact Or.inl (lt_trans h1 h2)
  · exact Or.inl (h2 ▸ h1)
  · exact Or.inl (h1 ▸ h2)
  · exact Or.inr ⟨h1.trans h2, le_trans h1' h2'⟩

/-- Totality: if `y` is not strictly lex-below `x` then `x ≤ y`. -/
theorem lexLe_of_not_lexLt {x y : ℚ × ℚ} (h : ¬lexLt y x) : lexLe x y := by
  rcases lt_trichotomy x.1 y.1 with hlt | heq | hgt
  · exact Or.inl hlt
  · refine Or.inr ⟨heq, ?_⟩
    by_contra hlt2
    push_neg at hlt2
    exact h (Or.inr ⟨heq.symm, hlt2⟩)
  · exact (h (Or.inl hgt)).elim

/-- `lexLt` implies `lexLe`. -/
theorem lexLe_of_lexLt {x y : ℚ × ℚ} (h : lexLt x y) : lexLe x y := by
  rcases h with h | ⟨h, h'⟩
  · exact Or.inl h
  · exact Or.inr ⟨h, le_of_lt h'⟩

/-- The fold behind `pyMinPairs` returns an element of the scanned list. -/
theorem foldl_minStep_mem (xs : List (ℚ × ℚ)) :
    ∀ x, xs.foldl minStep x = x ∨ xs.foldl minStep x ∈ xs := by
  induction xs with
  | nil => intro x; exact Or.inl rfl
  | cons y ys ih =>
    intro x
    simp only [List.foldl_cons, minStep]
    by_cases h : lexLt y x
    · simp only [if_pos h]
      rcases ih y with h' | h'
      · exact Or.inr (by rw [h']; exact List.mem_cons_self _ _)
      · exact Or.inr (List.mem_cons_of_mem _ h')
    · simp only [if_neg h]
      rcases ih x with h' | h'
      · exact Or.inl h'
      · exact Or.inr (List.mem_cons_of_mem _ h')

/-- The fold behind `pyMinPairs` is a lex lower bound of the start and of
every scanned element. -/
theorem foldl_minStep_le (xs : List (ℚ × ℚ)) :
    ∀ x, lexLe (xs.foldl minStep x) x ∧ ∀ p ∈ xs, lexLe (xs.foldl minStep x) p := by
  induction xs with
  | nil => intro x; exact ⟨lexLe_refl x, by simp⟩
  | cons y ys ih =>
    intro x
    simp only [List.foldl_cons, minStep]
    by_cases h : lexLt y x
    · simp only [if_pos h]
      refine ⟨lexLe_trans (ih y).1 (lexLe_of_lexLt h), ?_⟩
      intro p hp
      rcases List.mem_cons.mp hp with hpy | hp
      · rw [hpy]; exact (ih y).1
      · exact (ih y).2 p hp
    · simp only [if_neg h]
      refine ⟨(ih x).1, ?_⟩
      intro p hp
      rcases List.mem_cons.mp hp with hpy | hp
      · rw [hpy]; exact lexLe_trans (ih x).1 (lexLe_of_not_lexLt h)
      · exact (ih x).2 p hp

/-- Counterexample to claim C3 as stated: two channels with the same payout
cycle tie on time-till-payout at `t = 0` (both `1`); the lowest-index
channel's pair is `(1, 5)`, yet the function returns `(1, 3)` — Python's
`min` breaks the tie by the *second* tuple component (the smaller payout
amount), not by channel index. -/
theorem C3_cex_tie_not_broken_by_index :
    Channels.get_time_and_money_for_next_cashout c3econ 0 = some (1, 3) ∧
      c3chA.till_cash_out 0 = 1 ∧ c3chB.till_cash_out 0 = 1 ∧
      c3chA.cash_out = 5 ∧ c3chB.cash_out = 3 :=
  ⟨by decide, by decide, by decide, by decide, by decide⟩

/-- Claim C3 (amended): for every time `t` and non-empty channel collection,
`get_time_and_money_for_next_cashout(t)` returns the *lexicographic*
minimum of the `(time until next payout, payout amount)` pairs: the channel
paying soonest wins, a tie on the payout time is broken by the smaller
payout amount, and channel order matters only between fully equal pairs. -/
theorem C3_amended_lex_minimum (econ : Channels) (t : ℚ) (m : ℚ × ℚ)
    (h : Channels.get_time_and_money_for_next_cashout econ t = some m) :
    m ∈ Channels.cashout_pairs econ t ∧
      ∀ p ∈ Channels.cashout_pairs econ t, lexLe m p := by
  unfold Channels.get_time_and_money_for_next_cashout pyMinPairs at h
  rcases hps : Channels.cashout_pairs econ t with _ | ⟨x, xs⟩
  · rw [hps] at h; cases h
  · rw [hps] at h
    injection h with h
    subst h
    constructor
    · rcases foldl_minStep_mem xs x with h' | h'
      · rw [h']; exact List.mem_cons_self _ _
      · exact List.mem_cons_of_mem _ h'
    · intro p hp
      rcases List.mem_cons.mp hp with hpx | hp
      · rw [hpx]; exact (foldl_minStep_le xs x).1
      · exact (foldl_minStep_le xs x).2 p hp

/-- Witness for the amended C3 at the concrete two-channel tie economy. -/
theorem C3_witness :
    (1, 3) ∈ Channels.cashout_pairs c3econ 0 ∧
      ∀ p ∈ Channels.cashout_pairs c3econ 0, lexLe (1, 3) p :=
  C3_amended_lex_minimum c3econ 0 (1, 3) (by decide)

/-!
## Claim C8 — the memo key and lossy collisions
-/

/-- Claim C8: the memo key of a state `(channels, cash, t)` is exactly the
triple (per-channel `floor((t mod t_i)·10)`, `floor((cash mod max_cost) /
min_cost)`, level vector); and for two distinct states with the same key,
looking the later state up after the earlier state's result was stored
returns the earlier state's (possibly stale) value. -/
theorem C8_memo_key_and_collision (econ1 econ2 : Channels) (cash1 t1 cash2 t2 : ℚ)
    (mem : Memo) (v : Val)
    (hk : LookupStorage.key econ1 cash1 t1 = LookupStorage.key econ2 cash2 t2)
    (hne : ¬(econ1 = econ2 ∧ cash1 = cash2 ∧ t1 = t2)) :
    LookupStorage.key econ1 cash1 t1 =
      (econ1.t_rems t1, ⌊pymod cash1 econ1.max_cost / econ1.min_cost⌋, econ1.lvls) ∧
    LookupStorage.lookup (memStore mem (LookupStorage.key econ1 cash1 t1) v) econ2 cash2 t2 =
      (LookupStorage.key econ2 cash2 t2, some v) := by
  refine ⟨rfl, ?_⟩
  unfold LookupStorage.lookup memStore memLookup
  rw [hk]
  simp

/-- Witness for C8: on a one-channel economy (cost 20), the distinct states
`(cash = 1, t = 1/100)` and `(cash = 3/2, t = 1/50)` share the key
`([0], 0, [1])`; the later lookup returns the value stored for the
earlier state. -/
theorem C8_witness :
    LookupStorage.key c8econ 1 (1 / 100) = LookupStorage.key c8econ (3 / 2) (1 / 50) ∧
    LookupStorage.lookup (memStore [] (LookupStorage.key c8econ 1 (1 / 100)) (5, []))
        c8econ (3 / 2) (1 / 50) =
      (LookupStorage.key c8econ (3 / 2) (1 / 50), some (5, [])) :=
  ⟨by decide,
    (C8_memo_key_and_collision c8econ c8econ 1 (1 / 100) (3 / 2) (1 / 50) [] (5, [])
      (by decide) (by intro h; exact absurd h.2.1 (by norm_num))).2⟩

/-!
## Claim C10 — the three policies and their agreement on the hand-built economy
-/

/-- Claim C10 (with policies 2 and 3 and the selector modelled from §4.3 of
the spec, since only policy 1 exists in `src/`): on the hand-built
one-channel economy with income 1 and reachable bound 2, the
configuration-selected policies give completion times `2001/1000` (policy 1,
the in-source `Channels.upgradeAt`), `2` (policy 2) and `2` (policy 3), and
policies 2 and 3 are within the tolerance `TOL = 1/100` of policy 1's
reference result. -/
theorem C10_policies_agree_within_tolerance :
    runPolicy 1 2 10 c10econ 0 0 = some (2001 / 1000) ∧
    runPolicy 2 2 10 c10econ 0 0 = some 2 ∧
    runPolicy 3 2 10 c10econ 0 0 = some 2 ∧
    |(2 : ℚ) - 2001 / 1000| ≤ TOL := by
  refine ⟨by decide, by decide, by decide, ?_⟩
  rw [show |(2 : ℚ) - 2001 / 1000| = 1 / 1000 by norm_num [abs_of_nonpos]]
  norm_num [TOL]

/-!
## Claim C7 — `optimize` restores the shared Economy
-/

/-- `upgradeAt` only ever mutates the collection by the single `cu.upgrade()`
call of line 106: when it returns, the returned collection is the input with
channel `i` upgraded. -/
theorem upgradeAt_econ {fuel : ℕ} {econ : Channels} {i : ℕ} {cash t c' t' : ℚ}
    {e' : Channels} (h : Channels.upgradeAt fuel econ i cash t = some (c', t', e')) :
    e' = modifyIdx econ i Channel.upgrade := by
  unfold Channels.upgradeAt at h
  cases hl : Channels.upgradeLoop econ i fuel cash t with
  | none => rw [hl] at h; cases h
  | some ct => rw [hl] at h; cases h; rfl

/-- Composing two in-place updates at the same index. -/
theorem modifyIdx_modifyIdx (l : Channels) :
    ∀ (i : ℕ) (f g : Channel → Channel),
      modifyIdx (modifyIdx l i f) i g = modifyIdx l i (fun c => g (f c)) := by
  induction l with
  | nil => intro i f g; rfl
  | cons c cs ih =>
    intro i f g
    cases i with
    | zero => rfl
    | succ n => simp only [modifyIdx, ih]

/-- A channel in-place-updated by a multiplier-table-preserving function keeps
the nonzero-factor property of the collection. -/
theorem NonzeroFactors_modifyIdx_upgrade {econ : Channels} (hnz : NonzeroFactors econ)
    (i : ℕ) : NonzeroFactors (modifyIdx econ i Channel.upgrade) := by
  induction econ generalizing i with
  | nil => exact hnz
  | cons c cs ih =>
    cases i with
    | zero =>
      intro c' hc' ℓ
      rcases List.mem_cons.mp hc' with hc' | hc'
      · rw [hc']
        exact hnz c (List.mem_cons_self _ _) ℓ
      · exact hnz c' (List.mem_cons_of_mem _ hc') ℓ
    | succ n =>
      intro c' hc' ℓ
      rcases List.mem_cons.mp hc' with hc' | hc'
      · rw [hc']; exact hnz c (List.mem_cons_self _ _) ℓ
      · exact ih (fun x hx => hnz x (List.mem_cons_of_mem _ hx)) n c' hc' ℓ

/-- Upgrading channel `i` in place and then degrading it restores the
collection (all table factors nonzero). -/
theorem modifyIdx_upgrade_degrade {econ : Channels} (hnz : NonzeroFactors econ) (i : ℕ) :
    modifyIdx (modifyIdx econ i Channel.upgrade) i Channel.degrade = econ := by
  induction econ generalizing i with
  | nil => rfl
  | cons c cs ih =>
    cases i with
    | zero =>
      show (c.upgrade.degrade :: cs) = c :: cs
      rw [degrade_upgrade_eq c (hnz c (List.mem_cons_self _ _) _)]
    | succ n =>
      show c :: modifyIdx (modifyIdx cs n Channel.upgrade) n Channel.degrade = c :: cs
      rw [ih (fun x hx => hnz x (List.mem_cons_of_mem _ hx)) n]

/-- A `none` accumulator short-circuits the sibling loop. -/
theorem foldl_sibStep_none (f : Channels → ℚ → ℚ → UPath → Glob →
      Option ((ℚ × UPath) × Glob × Channels))
    (lf : ℕ) (cash t : ℚ) (path : UPath) :
    ∀ l : List ℕ, l.foldl (sibStep f lf cash t path) none = none := by
  intro l
  induction l with
  | nil => rfl
  | cons i rest ih => simpa [sibStep] using ih

/-- If the recursive call always restores the economy it is given, then the
sibling loop of `optimize` returns the economy it started from: each
iteration upgrades channel `i` (inside the simulator), recurses, and undoes
the upgrade with `degrade(i)`. -/
theorem foldl_sibStep_restore (f : Channels → ℚ → ℚ → UPath → Glob →
      Option ((ℚ × UPath) × Glob × Channels))
    (lf : ℕ) (cash t : ℚ) (path : UPath)
    (hf : ∀ econ cash' t' path' g res g' e', NonzeroFactors econ →
        f econ cash' t' path' g = some (res, g', e') → e' = econ) :
    ∀ (l : List ℕ) (econ : Channels) (g : Glob) (opts : List (ℚ × UPath))
      (res : Channels × Glob × List (ℚ × UPath)), NonzeroFactors econ →
      l.foldl (sibStep f lf cash t path) (some (econ, g, opts)) = some res →
      res.1 = econ := by
  intro l
  induction l with
  | nil =>
    intro econ g opts res _ h
    cases h
    rfl
  | cons i rest ih =>
    intro econ g opts res hnz h
    rw [List.foldl_cons] at h
    cases hup : Channels.upgradeAt lf econ i cash t with
    | none =>
      rw [show sibStep f lf cash t path (some (econ, g, opts)) i = none by
        simp [sibStep, hup]] at h
      rw [foldl_sibStep_none] at h
      cases h
    | some cte =>
      obtain ⟨c', t', e'⟩ := cte
      cases hrec : f e' c' t' (path ++ [(i, t')]) g with
      | none =>
        rw [show sibStep f lf cash t path (some (econ, g, opts)) i = none by
          simp [sibStep, hup, hrec]] at h
        rw [foldl_sibStep_none] at h
        cases h
      | some rge =>
        obtain ⟨res0, g', e''⟩ := rge
        have he' : e' = modifyIdx econ i Channel.upgrade := upgradeAt_econ hup
        have hnz' : NonzeroFactors e' := he' ▸ NonzeroFactors_modifyIdx_upgrade hnz i
        have he'' : e'' = e' := hf e' c' t' _ g res0 g' e'' hnz' hrec
        have hrestore : modifyIdx e'' i Channel.degrade = econ := by
          rw [he'', he']
          exact modifyIdx_upgrade_degrade hnz i
        rw [show sibStep f lf cash t path (some (econ, g, opts)) i =
            some (modifyIdx e'' i Channel.degrade, g', opts ++ [res0]) by
          simp [sibStep, hup, hrec]] at h
        rw [hrestore] at h
        exact ih econ g' (opts ++ [res0]) res hnz h

/-- Claim C7: every returning call of `optimize` leaves the shared Economy
unchanged — each sibling iteration performs exactly one upgrade of channel
`i` (inside the simulator) and undoes it with `degrade(i)` before the next
sibling, so the collection handed back equals the one at entry (hypothesis:
nonzero table factors, without which `degrade` raises in Python instead of
returning). -/
theorem C7_optimize_restores_economy (bound : ℚ) :
    ∀ (fuel : ℕ) (econ : Channels) (cash t : ℚ) (path : UPath) (glob : Glob)
      (res : ℚ × UPath) (g' : Glob) (e' : Channels), NonzeroFactors econ →
      optimizeF bound fuel econ cash t path glob = some (res, g', e') → e' = econ := by
  intro fuel
  induction fuel with
  | zero => intro econ cash t path glob res g' e' _ h; cases h
  | succ fuel ih =>
    intro econ cash t path glob res g' e' hnz h
    unfold optimizeF at h
    cases hm : memLookup glob.mem (LookupStorage.key econ cash t) with
    | some v =>
      rw [hm] at h
      cases h
      rfl
    | none =>
      rw [hm] at h
      by_cases hb : t > glob.best
      · rw [if_pos hb] at h
        cases h
        rfl
      · rw [if_neg hb] at h
        by_cases hinc : Channels.income econ < bound
        · rw [if_pos hinc] at h
          cases hfold : (List.range econ.length).foldl
              (sibStep (optimizeF bound fuel) fuel cash t path) (some (econ, glob, [])) with
          | none => rw [hfold] at h; cases h
          | some egp =>
            obtain ⟨econEnd, g, opts⟩ := egp
            rw [hfold] at h
            simp only [] at h
            cases hmin : pyMinByFst opts with
            | none => rw [hmin] at h; cases h
            | some tp =>
              rw [hmin] at h
              simp only [] at h
              have hegp : econEnd = econ :=
                foldl_sibStep_restore (optimizeF bound fuel) fuel cash t path
                  (fun e c2 t2 p2 g2 r2 g2' e2 hz hcall =>
                    ih e c2 t2 p2 g2 r2 g2' e2 hz hcall)
                  (List.range econ.length) econ glob [] (econEnd, g, opts) hnz hfold
              cases h
              exact hegp
        · rw [if_neg hinc] at h
          cases h
          rfl

/-- Witness for C7: a one-channel economy (income 1, bound 2, ample cash)
where the search really performs an upgrade–recurse–degrade round and the
returned economy equals the input one. -/
theorem C7_witness :
    NonzeroFactors c7econ ∧
      (optimizeF 2 2 c7econ 100 EPSILON [] initGlob).map (fun r => r.2.2) = some c7econ := by
  have hnz : NonzeroFactors c7econ := by
    intro c hc ℓ
    rcases List.mem_cons.mp hc with hc | hc
    · rw [hc]; exact one_ne_zero
    · cases hc
  have hrun : optimizeF 2 2 c7econ 100 EPSILON [] initGlob =
      some ((EPSILON, [(0, EPSILON)]),
        ⟨EPSILON, memStore (memStore [] (LookupStorage.key
            (modifyIdx c7econ 0 Channel.upgrade) 96 EPSILON) (EPSILON, [(0, EPSILON)]))
          (LookupStorage.key c7econ 100 EPSILON) (EPSILON, [(0, EPSILON)])⟩,
        modifyIdx (modifyIdx c7econ 0 Channel.upgrade) 0 Channel.degrade) := by rfl
  refine ⟨hnz, ?_⟩
  rw [hrun]
  rw [C7_optimize_restores_economy 2 2 c7econ 100 EPSILON [] initGlob
    (EPSILON, [(0, EPSILON)]) _ _ hnz hrun]
  rfl

/-!
## Claim C2 — the §8 one-channel scenario

With `cost.initial = 10`, `views = revenue = 1` and starting level 0, the
channel's payout `cash_out() = views·p·multiplier·lvl` is `0`, and `main`
starts the search with `cash = EPSILON = 1/1000 < 10`.  The event loop of
`upgradeAt` credits `0` cash per payout forever, so the very first simulator
call of the search never returns.
-/

/-- The event loop on the C2 scenario never terminates while the cash (which
it never increases) is below the level-0 cost of 10. -/
theorem c2_loop_stuck : ∀ (fuel : ℕ) (cash t : ℚ), cash < 10 →
    Channels.upgradeLoop c2econ 0 fuel cash t = none := by
  intro fuel
  induction fuel with
  | zero =>
    intro cash t hlt
    unfold Channels.upgradeLoop
    rw [if_pos (by rw [show (c2econ.getD 0 dfltChannel).cost = 10 from by decide]; exact hlt)]
  | succ fuel ih =>
    intro cash t hlt
    unfold Channels.upgradeLoop
    rw [if_pos (by rw [show (c2econ.getD 0 dfltChannel).cost = 10 from by decide]; exact hlt)]
    rw [show Channels.get_time_and_money_for_next_cashout c2econ t =
        some (1 - pymod t 1, 0) from by
      unfold Channels.get_time_and_money_for_next_cashout Channels.cashout_pairs c2econ c1ch
      simp [pyMinPairs, Channel.cash_out, Channel.ofDef, tblOne]]
    show Channels.upgradeLoop c2econ 0 fuel (cash + 0) (t + (1 - pymod t 1) + EPSILON) = none
    rw [add_zero]
    exact ih cash (t + (1 - pymod t 1) + EPSILON) hlt

/-- Shared fact behind claim C2: the search as started in `main` on the §8
scenario returns nothing at any fuel. -/
theorem c2_optimize_none :
    ∀ fuel : ℕ, optimizeF 1 fuel c2econ EPSILON EPSILON [] initGlob = none := by
  intro fuel
  cases fuel with
  | zero => rfl
  | succ fuel =>
    unfold optimizeF
    rw [show memLookup initGlob.mem (LookupStorage.key c2econ EPSILON EPSILON) = none from rfl]
    rw [if_neg (by decide : ¬EPSILON > initGlob.best)]
    rw [if_pos (by decide : Channels.income c2econ < 1)]
    rw [show (List.range c2econ.length) = [0] from by decide]
    have hupg : Channels.upgradeAt fuel c2econ 0 EPSILON EPSILON = none := by
      unfold Channels.upgradeAt
      rw [c2_loop_stuck fuel EPSILON EPSILON (by norm_num [EPSILON])]
      rfl
    simp only [List.foldl_cons, List.foldl_nil, sibStep, hupg]

/-- Claim C2 (amended): on the §8 scenario configuration (one channel,
`cost.initial = 10`, `cost.rate = 2`, `reward.duration = 1`, `views = 1`,
`revenue = 1`, level 0, empty multiplier table, bound 1), the exact-policy
search started as in `main` — `optimize(channels, EPSILON, EPSILON, [])` —
does *not* terminate: at every fuel the run is cut off inside the very
first simulator call, because the level-0 channel pays 0 and the starting
cash `EPSILON < 10` never grows, so no upgrade ever becomes affordable and
no result (let alone a hand-computable optimal path) is returned. -/
theorem C2_amended_search_never_returns :
    ∀ fuel : ℕ, optimizeF 1 fuel c2econ EPSILON EPSILON [] initGlob = none :=
  fun fuel => c2_optimize_none fuel

/-- Counterexample to claim C2 as stated (the search "terminates and returns
the hand-computable optimal path"): even with fuel for a thousand recursion
and payout steps, the search as started in `main` has produced no result. -/
theorem C2_cex_no_result_at_fuel_1000 :
    optimizeF 1 1000 c2econ EPSILON EPSILON [] initGlob = none :=
  c2_optimize_none 1000

/-!
## Claim C5 — the lru_cache layer is transparent
-/

/-- A well-formed cost cache means a `cost()` call returns the pure
`c0 * r**lvl` of the *current* level. -/
theorem costQ_fst {c : ChannelC} (h : WFch c) : c.costQ.1 = c.ch.cost := by
  unfold ChannelC.costQ
  cases hc : c.costCache c.ch.lvl with
  | some v => exact h c.ch.lvl v hc
  | none => rfl

/-- A `cost()` call never changes the channel itself. -/
theorem costQ_ch (c : ChannelC) : c.costQ.2.ch = c.ch := by
  unfold ChannelC.costQ
  cases hc : c.costCache c.ch.lvl <;> rfl

/-- A `cost()` call preserves cache well-formedness. -/
theorem costQ_WF {c : ChannelC} (h : WFch c) : WFch c.costQ.2 := by
  unfold ChannelC.costQ
  cases hc : c.costCache c.ch.lvl with
  | some v => exact h
  | none =>
    intro ℓ v hv
    change (if ℓ = c.ch.lvl then some c.ch.cost else c.costCache ℓ) = some v at hv
    show v = c.ch.c0 * c.ch.r ^ ℓ
    by_cases hℓ : ℓ = c.ch.lvl
    · subst hℓ
      rw [if_pos rfl] at hv
      cases hv
      rfl
    · rw [if_neg hℓ] at hv
      exact h ℓ v hv

/-- The generator of `min_cost`/`max_cost` produces exactly the channels'
pure current costs. -/
theorem costsQ_fst : ∀ cs : List ChannelC, (∀ c ∈ cs, WFch c) →
    (costsQ cs).1 = cs.map fun c => c.ch.cost := by
  intro cs
  induction cs with
  | nil => intro _; rfl
  | cons c cs ih =>
    intro h
    show (c.costQ.1 :: (costsQ cs).1) = _
    rw [costQ_fst (h c (List.mem_cons_self _ _)),
      ih fun x hx => h x (List.mem_cons_of_mem _ hx)]
    rfl

/-- The generator preserves each channel's `ch` component. -/
theorem costsQ_ch : ∀ cs : List ChannelC, ((costsQ cs).2).map (fun c => c.ch) =
    cs.map fun c => c.ch := by
  intro cs
  induction cs with
  | nil => rfl
  | cons c cs ih =>
    show (c.costQ.2.ch :: ((costsQ cs).2).map _) = _
    rw [costQ_ch, ih]
    rfl

/-- The generator preserves cache well-formedness. -/
theorem costsQ_WF : ∀ cs : List ChannelC, (∀ c ∈ cs, WFch c) →
    ∀ c ∈ (costsQ cs).2, WFch c := by
  intro cs
  induction cs with
  | nil => intro _ c hc; cases hc
  | cons c cs ih =>
    intro h c' hc'
    rcases List.mem_cons.mp hc' with hc' | hc'
    · rw [hc']; exact costQ_WF (h c (List.mem_cons_self _ _))
    · exact ih (fun x hx => h x (List.mem_cons_of_mem _ hx)) c' hc'

/-- `costAtL` only looks at the `ch` component's cost parameters. -/
theorem zipWith_costAtL_of_ch_eq : ∀ (cs1 cs2 : List ChannelC),
    cs1.map (fun c => c.ch) = cs2.map (fun c => c.ch) →
    ∀ L : List ℕ, List.zipWith costAtL cs1 L = List.zipWith costAtL cs2 L := by
  intro cs1
  induction cs1 with
  | nil =>
    intro cs2 h L
    cases cs2 with
    | nil => rfl
    | cons _ _ => simp at h
  | cons c cs ih =>
    intro cs2 h L
    cases cs2 with
    | nil => simp at h
    | cons c2 cs2 =>
      simp only [List.map_cons] at h
      injection h with h1 h2
      cases L with
      | nil => rfl
      | cons ℓ L =>
        show costAtL c ℓ :: _ = costAtL c2 ℓ :: _
        rw [show costAtL c ℓ = costAtL c2 ℓ from by unfold costAtL; rw [h1],
          ih cs2 h2 L]

/-- The current level vector and current costs line up: evaluating the
per-level cost at the current level vector gives the current costs. -/
theorem zipWith_costAtL_lvls : ∀ cs : List ChannelC,
    List.zipWith costAtL cs (cs.map fun c => c.ch.lvl) = cs.map fun c => c.ch.cost := by
  intro cs
  induction cs with
  | nil => rfl
  | cons c cs ih =>
    show costAtL c c.ch.lvl :: _ = _
    rw [ih]
    rfl

/-- Reflexivity of the pointwise cost-at-level relation. -/
theorem forall₂_costAtL_refl : ∀ l : List ChannelC,
    List.Forall₂ (fun a b => ∀ ℓ, costAtL a ℓ = costAtL b ℓ) l l := by
  intro l
  induction l with
  | nil => exact List.Forall₂.nil
  | cons c cs ih => exact List.Forall₂.cons (fun ℓ => rfl) ih

/-- Two channel lists with pointwise equal cost parameters produce the same
hypothetical costs at every level vector. -/
theorem zipWith_costAtL_of_forall₂ {cs1 cs2 : List ChannelC}
    (h : List.Forall₂ (fun a b => ∀ ℓ, costAtL a ℓ = costAtL b ℓ) cs1 cs2) :
    ∀ L : List ℕ, List.zipWith costAtL cs1 L = List.zipWith costAtL cs2 L := by
  induction h with
  | nil => intro L; rfl
  | cons hab hrest ih =>
    intro L
    cases L with
    | nil => rfl
    | cons ℓ L =>
      show _ :: _ = _ :: _
      rw [hab ℓ, ih L]

/-- In-place update by a cost-parameter-preserving function relates the
updated list to the original pointwise. -/
theorem modifyIdxC_forall₂ (f : ChannelC → ChannelC)
    (hf : ∀ c ℓ, costAtL (f c) ℓ = costAtL c ℓ) :
    ∀ (l : List ChannelC) (i : ℕ),
      List.Forall₂ (fun a b => ∀ ℓ, costAtL a ℓ = costAtL b ℓ) (modifyIdxC l i f) l := by
  intro l
  induction l with
  | nil => intro i; exact List.Forall₂.nil
  | cons c cs ih =>
    intro i
    cases i with
    | zero => exact List.Forall₂.cons (hf c) (forall₂_costAtL_refl cs)
    | succ n => exact List.Forall₂.cons (fun ℓ => rfl) (ih n)

/-- The generator of `min_cost`/`max_cost` preserves cost parameters
pointwise. -/
theorem costsQ_forall₂ : ∀ cs : List ChannelC,
    List.Forall₂ (fun a b => ∀ ℓ, costAtL a ℓ = costAtL b ℓ) (costsQ cs).2 cs := by
  intro cs
  induction cs with
  | nil => exact List.Forall₂.nil
  | cons c cs ih =>
    refine List.Forall₂.cons (fun ℓ => ?_) ih
    unfold costAtL
    rw [costQ_ch]

/-- Membership is preserved by in-place update with a WF-preserving
function. -/
theorem modifyIdxC_WF {f : ChannelC → ChannelC} (hf : ∀ c, WFch c → WFch (f c)) :
    ∀ (l : List ChannelC) (i : ℕ), (∀ c ∈ l, WFch c) →
      ∀ c ∈ modifyIdxC l i f, WFch c := by
  intro l
  induction l with
  | nil => intro i _ c hc; cases hc
  | cons c cs ih =>
    intro i h c' hc'
    cases i with
    | zero =>
      rcases List.mem_cons.mp hc' with hc' | hc'
      · rw [hc']; exact hf c (h c (List.mem_cons_self _ _))
      · exact h c' (List.mem_cons_of_mem _ hc')
    | succ n =>
      rcases List.mem_cons.mp hc' with hc' | hc'
      · rw [hc']; exact h c (List.mem_cons_self _ _)
      · exact ih n (fun x hx => h x (List.mem_cons_of_mem _ hx)) c' hc'

/-- `getD` with a well-formed default returns a well-formed channel. -/
theorem getD_WF {l : List ChannelC} (h : ∀ c ∈ l, WFch c) :
    ∀ i : ℕ, WFch (l.getD i dfltChannelC) := by
  induction l with
  | nil =>
    intro i
    intro ℓ v hv
    cases hv
  | cons c cs ih =>
    intro i
    cases i with
    | zero => exact h c (List.mem_cons_self _ _)
    | succ n => exact ih (fun x hx => h x (List.mem_cons_of_mem _ hx)) n

/-- Evaluating hypothetical costs at the *current* level vector gives the
current costs. -/
theorem costsAt_lvlsC (s : ChannelsC) :
    costsAt s (lvlsC s) = s.chans.map fun c => c.ch.cost :=
  zipWith_costAtL_lvls s.chans

/-- On a well-formed state, `min_cost()` returns the minimum of the channels'
current costs — whether it hits the cache or recomputes. -/
theorem min_costQ_fst {s : ChannelsC} (hWF : WFsys s) :
    (min_costQ s).1 = pyMinQ (s.chans.map fun c => c.ch.cost) := by
  obtain ⟨hch, hmin, _⟩ := hWF
  unfold min_costQ
  cases hc : s.minCache (lvlsC s) with
  | some v =>
    have hv := hmin _ v hc
    rw [show costsAt s (lvlsC s) = s.chans.map (fun c => c.ch.cost) from costsAt_lvlsC s] at hv
    rw [hv]
  | none =>
    cases hpm : pyMinQ (costsQ s.chans).1 with
    | none =>
      show (none : Option ℚ) = _
      rw [costsQ_fst s.chans hch] at hpm
      rw [hpm]
    | some v =>
      show (some v : Option ℚ) = _
      rw [costsQ_fst s.chans hch] at hpm
      rw [hpm]

/-- On a well-formed state, `max_cost()` returns the maximum of the channels'
current costs. -/
theorem max_costQ_fst {s : ChannelsC} (hWF : WFsys s) :
    (max_costQ s).1 = pyMaxQ (s.chans.map fun c => c.ch.cost) := by
  obtain ⟨hch, _, hmax⟩ := hWF
  unfold max_costQ
  cases hc : s.maxCache (lvlsC s) with
  | some v =>
    have hv := hmax _ v hc
    rw [show costsAt s (lvlsC s) = s.chans.map (fun c => c.ch.cost) from costsAt_lvlsC s] at hv
    rw [hv]
  | none =>
    cases hpm : pyMaxQ (costsQ s.chans).1 with
    | none =>
      show (none : Option ℚ) = _
      rw [costsQ_fst s.chans hch] at hpm
      rw [hpm]
    | some v =>
      show (some v : Option ℚ) = _
      rw [costsQ_fst s.chans hch] at hpm
      rw [hpm]

/-- Every operation of the search preserves well-formedness of all caches:
upgrades and degrades change only levels and multipliers (never the cost
parameters a cache entry depends on), and queries only add correct
entries. -/
theorem stepC_WF (s : ChannelsC) (op : COp) (hWF : WFsys s) : WFsys (stepC s op) := by
  obtain ⟨hch, hmin, hmax⟩ := hWF
  cases op with
  | up i =>
    simp only [stepC]
    refine ⟨@modifyIdxC_WF (fun c => ⟨c.ch.upgrade, c.costCache⟩)
      (fun c hc ℓ v hv => hc ℓ v hv) s.chans i hch, ?_, ?_⟩
    · intro L v hv
      show pyMinQ (List.zipWith costAtL
        (modifyIdxC s.chans i fun c => ⟨c.ch.upgrade, c.costCache⟩) L) = some v
      rw [zipWith_costAtL_of_forall₂ (modifyIdxC_forall₂
        (fun c => ⟨c.ch.upgrade, c.costCache⟩) (fun c ℓ => rfl) s.chans i) L]
      exact hmin L v hv
    · intro L v hv
      show pyMaxQ (List.zipWith costAtL
        (modifyIdxC s.chans i fun c => ⟨c.ch.upgrade, c.costCache⟩) L) = some v
      rw [zipWith_costAtL_of_forall₂ (modifyIdxC_forall₂
        (fun c => ⟨c.ch.upgrade, c.costCache⟩) (fun c ℓ => rfl) s.chans i) L]
      exact hmax L v hv
  | down i =>
    simp only [stepC]
    refine ⟨@modifyIdxC_WF (fun c => ⟨c.ch.degrade, c.costCache⟩)
      (fun c hc ℓ v hv => hc ℓ v hv) s.chans i hch, ?_, ?_⟩
    · intro L v hv
      show pyMinQ (List.zipWith costAtL
        (modifyIdxC s.chans i fun c => ⟨c.ch.degrade, c.costCache⟩) L) = some v
      rw [zipWith_costAtL_of_forall₂ (modifyIdxC_forall₂
        (fun c => ⟨c.ch.degrade, c.costCache⟩) (fun c ℓ => rfl) s.chans i) L]
      exact hmin L v hv
    · intro L v hv
      show pyMaxQ (List.zipWith costAtL
        (modifyIdxC s.chans i fun c => ⟨c.ch.degrade, c.costCache⟩) L) = some v
      rw [zipWith_costAtL_of_forall₂ (modifyIdxC_forall₂
        (fun c => ⟨c.ch.degrade, c.costCache⟩) (fun c ℓ => rfl) s.chans i) L]
      exact hmax L v hv
  | qcost i =>
    simp only [stepC]
    have hfca : ∀ (c : ChannelC) (ℓ : ℕ), costAtL c.costQ.2 ℓ = costAtL c ℓ := by
      intro c ℓ
      unfold costAtL
      rw [costQ_ch]
    refine ⟨@modifyIdxC_WF (fun c => c.costQ.2) (fun c hc => costQ_WF hc) s.chans i hch,
      ?_, ?_⟩
    · intro L v hv
      show pyMinQ (List.zipWith costAtL
        (modifyIdxC s.chans i fun c => c.costQ.2) L) = some v
      rw [zipWith_costAtL_of_forall₂ (modifyIdxC_forall₂
        (fun c => c.costQ.2) hfca s.chans i) L]
      exact hmin L v hv
    · intro L v hv
      show pyMaxQ (List.zipWith costAtL
        (modifyIdxC s.chans i fun c => c.costQ.2) L) = some v
      rw [zipWith_costAtL_of_forall₂ (modifyIdxC_forall₂
        (fun c => c.costQ.2) hfca s.chans i) L]
      exact hmax L v hv
  | qmin =>
    simp only [stepC]
    unfold min_costQ
    cases hc : s.minCache (lvlsC s) with
    | some v => exact ⟨hch, hmin, hmax⟩
    | none =>
      cases hpm : pyMinQ (costsQ s.chans).1 with
      | none =>
        refine ⟨costsQ_WF s.chans hch, ?_, ?_⟩
        · intro L v hv
          show pyMinQ (List.zipWith costAtL (costsQ s.chans).2 L) = some v
          rw [zipWith_costAtL_of_forall₂ (costsQ_forall₂ s.chans) L]
          exact hmin L v hv
        · intro L v hv
          show pyMaxQ (List.zipWith costAtL (costsQ s.chans).2 L) = some v
          rw [zipWith_costAtL_of_forall₂ (costsQ_forall₂ s.chans) L]
          exact hmax L v hv
      | some v =>
        refine ⟨costsQ_WF s.chans hch, ?_, ?_⟩
        · intro L w hw
          show pyMinQ (List.zipWith costAtL (costsQ s.chans).2 L) = some w
          rw [zipWith_costAtL_of_forall₂ (costsQ_forall₂ s.chans) L]
          change (if L = lvlsC s then some v else s.minCache L) = some w at hw
          by_cases hL : L = lvlsC s
          · rw [if_pos hL] at hw
            cases hw
            rw [hL]
            show pyMinQ (costsAt s (lvlsC s)) = some v
            rw [costsAt_lvlsC s, ← costsQ_fst s.chans hch]
            exact hpm
          · rw [if_neg hL] at hw
            exact hmin L w hw
        · intro L w hw
          show pyMaxQ (List.zipWith costAtL (costsQ s.chans).2 L) = some w
          rw [zipWith_costAtL_of_forall₂ (costsQ_forall₂ s.chans) L]
          exact hmax L w hw
  | qmax =>
    simp only [stepC]
    unfold max_costQ
    cases hc : s.maxCache (lvlsC s) with
    | some v => exact ⟨hch, hmin, hmax⟩
    | none =>
      cases hpm : pyMaxQ (costsQ s.chans).1 with
      | none =>
        refine ⟨costsQ_WF s.chans hch, ?_, ?_⟩
        · intro L v hv
          show pyMinQ (List.zipWith costAtL (costsQ s.chans).2 L) = some v
          rw [zipWith_costAtL_of_forall₂ (costsQ_forall₂ s.chans) L]
          exact hmin L v hv
        · intro L v hv
          show pyMaxQ (List.zipWith costAtL (costsQ s.chans).2 L) = some v
          rw [zipWith_costAtL_of_forall₂ (costsQ_forall₂ s.chans) L]
          exact hmax L v hv
      | some v =>
        refine ⟨costsQ_WF s.chans hch, ?_, ?_⟩
        · intro L w hw
          show pyMinQ (List.zipWith costAtL (costsQ s.chans).2 L) = some w
          rw [zipWith_costAtL_of_forall₂ (costsQ_forall₂ s.chans) L]
          exact hmin L w hw
        · intro L w hw
          show pyMaxQ (List.zipWith costAtL (costsQ s.chans).2 L) = some w
          rw [zipWith_costAtL_of_forall₂ (costsQ_forall₂ s.chans) L]
          change (if L = lvlsC s then some v else s.maxCache L) = some w at hw
          by_cases hL : L = lvlsC s
          · rw [if_pos hL] at hw
            cases hw
            rw [hL]
            show pyMaxQ (costsAt s (lvlsC s)) = some v
            rw [costsAt_lvlsC s, ← costsQ_fst s.chans hch]
            exact hpm
          · rw [if_neg hL] at hw
            exact hmax L w hw

/-- Starting from construction, every reachable cached state is
well-formed. -/
theorem WFsys_runCOps (chs : List Channel) (ops : List COp) : WFsys (runCOps chs ops) := by
  suffices h : ∀ (ops' : List COp) (s : ChannelsC), WFsys s → WFsys (ops'.foldl stepC s) by
    refine h ops (initC chs) ⟨?_, ?_, ?_⟩
    · intro c hc ℓ v hv
      rcases List.mem_map.mp hc with ⟨x, _, hx⟩
      rw [← hx] at hv
      cases hv
    · intro L v hv; cases hv
    · intro L v hv; cases hv
  intro ops'
  induction ops' with
  | nil => intro s h; exact h
  | cons op rest ih => intro s h; exact ih _ (stepC_WF s op h)

/-- Claim C5: at every point in the search — i.e. after any sequence of
upgrades, degrades and cached queries starting from construction —
`Channel.cost()` returns `c0 * r**level` for the channel's *current* level,
and `min_cost()`/`max_cost()` return the minimum/maximum of `cost()` over
the channels' *current* levels: no lru_cache value computed at a different
level or level vector is ever returned after a level change (the caches are
keyed by the `__hash__` values, the level resp. the level vector). -/
theorem C5_lru_caches_transparent (chs : List Channel) (ops : List COp) (i : ℕ) :
    ((runCOps chs ops).chans.getD i dfltChannelC).costQ.1
        = ((runCOps chs ops).chans.getD i dfltChannelC).ch.cost ∧
      (min_costQ (runCOps chs ops)).1
        = pyMinQ ((runCOps chs ops).chans.map fun c => c.ch.cost) ∧
      (max_costQ (runCOps chs ops)).1
        = pyMaxQ ((runCOps chs ops).chans.map fun c => c.ch.cost) := by
  have hWF := WFsys_runCOps chs ops
  exact ⟨costQ_fst (getD_WF hWF.1 i), min_costQ_fst hWF, max_costQ_fst hWF⟩
